import Mathlib

/-!
# The parser's transition dictionary (`src/parser/transition_map.cpp`)

A shallow embedding of `meta::parser::transition_map`: the two members
`transitions_` (id → transition) and `map_` (transition → id), the operations
`operator[]`, `at`, `size`, and the persistence pair `save` / `load`.

The headers the translation unit includes (`parser/transition_map.h`,
`parser/transition.h`, `io/packed.h`) are not part of the sources; what the
code needs from them is modelled from the specification and marked so.
-/

namespace TransitionMap

/-! ## Bytes and streams -/

/-- One octet of a persisted store. -/
abbrev Byte := Fin 256

/-- Modelled from the spec: the identifier type `trans_id` is declared in a
header that is missing. The specification describes it as a dense zero-based
integer handle, so `static_cast<trans_id>(n)` is the identity on sizes. -/
abbrev trans_id := Nat

/-- Input byte stream (`std::istream`): the bytes not yet consumed and the
failure flag that `!store` tests. Once the flag is set every further read is a
no-op that leaves it set. -/
structure istream where
  bytes : List Byte
  fail : Bool
deriving DecidableEq, Repr

/-- The stream a failed read leaves behind. -/
def istream.failed : istream := ⟨[], true⟩

/-- Little-endian digits of `n`, `k` octets, higher digits dropped
(the value is taken modulo `256 ^ k`). -/
def le_bytes : Nat → Nat → List Byte
  | 0, _ => []
  | k + 1, n => ⟨n % 256, Nat.mod_lt _ (by decide)⟩ :: le_bytes k (n / 256)

/-- Value of a little-endian octet string. -/
def le_value : List Byte → Nat
  | [] => 0
  | b :: bs => b.val + 256 * le_value bs

/-- Modelled from the spec: `io::packed::write` for an unsigned 64-bit integer
(`io/packed.h` is missing). The byte layout names the count as a `u64` in a
fixed binary encoding: eight octets, least significant first. -/
def write_u64 (n : Nat) : List Byte := le_bytes 8 (n % 2 ^ 64)

/-- Modelled from the spec: `io::packed::read` for an unsigned 64-bit integer
(`io/packed.h` is missing). On a good stream holding at least eight octets it
consumes them and yields their value; otherwise the stream ends up failed and
no value is produced (`none`: the destination variable is left with whatever
it held). -/
def read_u64 (s : istream) : Option Nat × istream :=
  if s.fail then (none, s)
  else if 8 ≤ s.bytes.length then
    (some (le_value (s.bytes.take 8)), ⟨s.bytes.drop 8, false⟩)
  else (none, istream.failed)

/-! ## Transitions -/

/-- Modelled from the spec: the discriminant `transition::type_t`
(`parser/transition.h` is missing). The persisted tag is one octet, so a value
read from a store can be any of the 256 octet values, named or not. -/
abbrev type_t := Fin 256

/-- Modelled from the spec: the named kinds, numbered in the order the
specification lists them (the enumeration itself is missing). -/
def type_t.SHIFT : type_t := 0

/-- Modelled from the spec: label-carrying kind REDUCE-LEFT. -/
def type_t.REDUCE_L : type_t := 1

/-- Modelled from the spec: label-carrying kind REDUCE-RIGHT. -/
def type_t.REDUCE_R : type_t := 2

/-- Modelled from the spec: label-carrying kind UNARY. -/
def type_t.UNARY : type_t := 3

/-- Modelled from the spec: unlabeled kind FINALIZE. -/
def type_t.FINALIZE : type_t := 4

/-- Modelled from the spec: unlabeled kind IDLE. -/
def type_t.IDLE : type_t := 5

/-- The three `case` labels shared by the `switch` in `load` and in `save`:
the kinds for which a label is read or written. -/
def carries_label (k : type_t) : Bool :=
  k == type_t.REDUCE_L || k == type_t.REDUCE_R || k == type_t.UNARY

/-- Modelled from the spec: `class_label`, an opaque text compared
byte-for-byte (the header is missing); it converts to `std::string`. -/
abbrev class_label := List Byte

/-- Modelled from the spec: the value type `transition`
(`parser/transition.h` is missing): a kind and a label field that is
meaningful only for the label-carrying kinds. `transition{k}` leaves the label
empty, `transition{k, l}` stores `l`. -/
structure transition where
  type : type_t
  label : class_label
deriving DecidableEq, Repr

/-- Constructor `transition{k}`. -/
def transition.of_type (k : type_t) : transition := ⟨k, []⟩

/-- Modelled from the spec: the equality (and hash) contract of `transition`:
the kinds match and, when the kind is label-carrying, the labels match
byte-for-byte; for the other kinds the label field is ignored. -/
def transition.equal (a b : transition) : Bool :=
  a.type == b.type && (!carries_label a.type || a.label == b.label)

/-- Modelled from the spec: `io::packed::write` for the kind tag, a
fixed-width discriminant of one octet (`io/packed.h` is missing). -/
def write_type (k : type_t) : List Byte := [k]

/-- Modelled from the spec: `io::packed::read` for the kind tag (`io/packed.h`
is missing): one octet from a good stream, otherwise the stream fails and no
value is produced. -/
def read_type (s : istream) : Option type_t × istream :=
  if s.fail then (none, s)
  else
    match s.bytes with
    | [] => (none, istream.failed)
    | b :: bs => (some b, ⟨bs, false⟩)

/-- Modelled from the spec: `io::packed::write` for a string, a
length-prefixed payload (`io/packed.h` is missing): the length as an integer
of the same encoding as the count, then the octets. -/
def write_string (l : class_label) : List Byte := write_u64 l.length ++ l

/-- Modelled from the spec: `io::packed::read` for a string (`io/packed.h` is
missing): the length, then that many octets; a stream that ends before the
payload is complete fails and no value is produced. -/
def read_string (s : istream) : Option class_label × istream :=
  match read_u64 s with
  | (some len, s1) =>
    if len ≤ s1.bytes.length then
      (some (s1.bytes.take len), ⟨s1.bytes.drop len, false⟩)
    else (none, istream.failed)
  | (none, s1) => (none, s1)

/-! ## The reverse index -/

/-- Modelled from the spec: the reverse index `map_` (its declaration is in
the missing header): an associative container keyed by `transition` under the
equality contract. Entries are kept in insertion order. -/
abbrev index := List (transition × trans_id)

/-- Lookup `map_.find(t)`: the id stored under a key equal to `t`, if any. -/
def index.find (m : index) (t : transition) : Option trans_id :=
  match m with
  | [] => none
  | (k, v) :: rest => if k.equal t then some v else index.find rest t

/-- Assignment `map_[t] = id`: overwrite the value under an equal key, or add
a new entry when there is none. -/
def index.assign (m : index) (t : transition) (id : trans_id) : index :=
  match m with
  | [] => [(t, id)]
  | (k, v) :: rest =>
    if k.equal t then (k, id) :: rest else (k, v) :: index.assign rest t id

/-! ## The dictionary -/

/-- Class `transition_map`: the members `transitions_` and `map_`. -/
structure transition_map where
  transitions_ : List transition
  map_ : index
deriving DecidableEq, Repr

/-- A default-constructed dictionary: both members empty. -/
def transition_map.empty : transition_map := ⟨[], []⟩

/-- The messages of `transition_map_exception` that `load` throws. -/
inductive transition_map_exception where
  | missing_file
  | malformed_file
  | too_few_transitions
deriving DecidableEq, Repr

/-- The malformed-store error kind: both "malformed" messages. -/
def transition_map_exception.is_malformed : transition_map_exception → Bool
  | .missing_file => false
  | .malformed_file => true
  | .too_few_transitions => true

/-- What the local variables of one loop iteration of `load` hold when a read
that should have filled them failed: `trans_type` is declared without an
initial value, and a failed string read leaves `lbl` unspecified. -/
structure indeterminate where
  type : type_t
  label : class_label

/-- One pass of the body of the `for` loop in `load`, after the `!store`
check: read the tag, read a label for the three label-carrying kinds, then
`id = map_.size(); map_[trans] = id; transitions_.emplace_back(trans)`. -/
def load_entry (junk : indeterminate) (s : istream) (d : transition_map) :
    transition_map × istream :=
  let r := read_type s
  let trans_type := r.1.getD junk.type
  let q : transition × istream :=
    if carries_label trans_type then
      let rl := read_string r.2
      (⟨trans_type, rl.1.getD junk.label⟩, rl.2)
    else (transition.of_type trans_type, r.2)
  let id : trans_id := d.map_.length
  (⟨d.transitions_ ++ [q.1], d.map_.assign q.1 id⟩, q.2)

/-- The `for` loop of `load`, by the number of iterations left. -/
def load_loop (junk : indeterminate) :
    Nat → istream → transition_map → Except transition_map_exception (transition_map × istream)
  | 0, s, d => .ok (d, s)
  | n + 1, s, d =>
    if s.fail then .error .too_few_transitions
    else
      let r := load_entry junk s d
      load_loop junk n r.2 r.1

/-- Method `transition_map::load`, run by the constructor on empty members:
the first `!store` check, the count read, the second `!store` check (a count
read that produced no value has left the stream failed), then the loop.
`transitions_.reserve` only sets capacity. The result carries the stream as
`load` leaves it. -/
def load_stream (junk : indeterminate) (store : istream) :
    Except transition_map_exception (transition_map × istream) :=
  if store.fail then .error .missing_file
  else
    match read_u64 store with
    | (none, _) => .error .malformed_file
    | (some num_trans, s1) =>
      if s1.fail then .error .malformed_file
      else load_loop junk num_trans s1 transition_map.empty

/-- Method `transition_map::load`, keeping the dictionary only. -/
def load (junk : indeterminate) (store : istream) :
    Except transition_map_exception transition_map :=
  (load_stream junk store).map Prod.fst

/-- Method `transition_map::at(trans_id)`: `transitions_.at(id)`; `none` is
the `std::out_of_range` that `vector::at` throws. -/
def at_id (d : transition_map) (id : trans_id) : Option transition :=
  d.transitions_.get? id

/-- Method `transition_map::at(const transition&)`; `none` is the
`std::out_of_range` thrown when `find` reaches `end()`. -/
def at_trans (d : transition_map) (trans : transition) : Option trans_id :=
  d.map_.find trans

/-- Method `transition_map::operator[]`: the id found, or push the transition,
take `map_.size()` as its id and store it. Returns the id and the dictionary
after the call. -/
def operator_index (d : transition_map) (trans : transition) :
    trans_id × transition_map :=
  match d.map_.find trans with
  | some id => (id, d)
  | none =>
    let id : trans_id := d.map_.length
    (id, ⟨d.transitions_ ++ [trans], d.map_.assign trans id⟩)

/-- Method `transition_map::size`: `map_.size()` when the assertion
`map_.size() == transitions_.size()` holds; `none` is the assertion failing. -/
def size (d : transition_map) : Option Nat :=
  if d.map_.length = d.transitions_.length then some d.map_.length else none

/-- The body of the range-`for` in `save` for one entry: the tag, then the
label for the three label-carrying kinds. -/
def save_entry (trans : transition) : List Byte :=
  write_type trans.type ++
    (if carries_label trans.type then write_string trans.label else [])

/-- The range-`for` of `save`: the bytes of the entries, one after another in
sequence order. -/
def save_entries (es : List transition) : List Byte := (es.map save_entry).flatten

/-- Method `transition_map::save`: the bytes written to the store, the count
`transitions_.size()` followed by the entries in sequence order. -/
def save (d : transition_map) : List Byte :=
  write_u64 d.transitions_.length ++ save_entries d.transitions_

/-- A sequence of `operator[]` calls: the ids returned, in call order, and the
dictionary after the last call. -/
def interns (d : transition_map) : List transition → List trans_id × transition_map
  | [] => ([], d)
  | t :: ts =>
    let r := operator_index d t
    let rs := interns r.2 ts
    (r.1 :: rs.1, rs.2)

/-- The dictionary built from an empty one by interning `ts` in order. -/
def built (ts : List transition) : transition_map := (interns transition_map.empty ts).2

/-! ## Notions the statements use -/

/-- The reverse index that lists the entries of a sequence in order, each
under its position, positions counted from `s`. -/
def numbered : Nat → List transition → index
  | _, [] => []
  | s, t :: ts => (t, s) :: numbered (s + 1) ts

/-- The two members agree: the reverse index holds exactly the entries of the
sequence, each under its position, and no two entries of the sequence are
equal under the equality contract. -/
def consistent (d : transition_map) : Prop :=
  d.map_ = numbered 0 d.transitions_ ∧
    d.transitions_.Pairwise (fun a b => a.equal b = false)

/-- The transition that the `switch` in `load` constructs from the bytes that
`save` writes for `t`: `transition{type, label}` for the three label-carrying
kinds, `transition{type}` otherwise. -/
def transition.reloaded (t : transition) : transition :=
  if carries_label t.type then ⟨t.type, t.label⟩ else transition.of_type t.type

/-- Number of distinct transitions in a list, under the equality contract:
an element counts unless an equal one follows it. -/
def count_distinct : List transition → Nat
  | [] => 0
  | t :: ts => (if ts.any (fun u => u.equal t) then 0 else 1) + count_distinct ts

/-- Position of the first element of `ts` equal to `t` (the length of `ts`
when there is none). -/
def first_occurrence (ts : List transition) (t : transition) : Nat :=
  ts.findIdx (fun u => u.equal t)

/-- The entries can be written in the persisted layout: their number and the
length of every label that is written are below `2 ^ 64`, as the sizes of a
`std::vector` and a `std::string` are. -/
def fits (ts : List transition) : Prop :=
  ts.length < 2 ^ 64 ∧
    ∀ t ∈ ts, carries_label t.type = true → t.label.length < 2 ^ 64

/-- The dictionary after the tail of the loop body of `load` ran once for each
of the given reconstructed entries, in order:
`id = map_.size(); map_[e] = id; transitions_.emplace_back(e)`. -/
def loaded (d : transition_map) : List transition → transition_map
  | [] => d
  | e :: es => loaded ⟨d.transitions_ ++ [e], d.map_.assign e d.map_.length⟩ es

/-- The persisted layout of one entry in the words of the specification: the
kind tag, followed, only if the kind is REDUCE-LEFT, REDUCE-RIGHT or UNARY, by
the label as a length-prefixed payload. -/
def layout_entry (t : transition) : List Byte :=
  if t.type = type_t.REDUCE_L ∨ t.type = type_t.REDUCE_R ∨ t.type = type_t.UNARY then
    t.type :: (le_bytes 8 (t.label.length % 2 ^ 64) ++ t.label)
  else [t.type]

/-- The persisted layout of the entries in the words of the specification:
one entry after the other in increasing id order, no padding, no delimiter. -/
def layout_entries : List transition → List Byte
  | [] => []
  | t :: ts => layout_entry t ++ layout_entries ts

/-- The persisted layout in the words of the specification: the entry count
as one unsigned 64-bit integer, then the entries. -/
def layout (ts : List transition) : List Byte :=
  le_bytes 8 (ts.length % 2 ^ 64) ++ layout_entries ts

/-! ## Facts about the equality contract and the reverse index -/

theorem equal_refl (a : transition) : a.equal a = true := by
  simp [transition.equal]

theorem equal_iff (a b : transition) :
    a.equal b = true ↔ a.type = b.type ∧ (carries_label a.type = true → a.label = b.label) := by
  simp only [transition.equal, Bool.and_eq_true, Bool.or_eq_true, Bool.not_eq_true', beq_iff_eq]
  constructor
  · rintro ⟨h1, h2⟩
    refine ⟨h1, fun h => ?_⟩
    rcases h2 with h2 | h2
    · rw [h] at h2; cases h2
    · exact h2
  · rintro ⟨h1, h2⟩
    refine ⟨h1, ?_⟩
    cases h : carries_label a.type
    · exact Or.inl rfl
    · exact Or.inr (h2 h)

theorem equal_symm {a b : transition} (h : a.equal b = true) : b.equal a = true := by
  rw [equal_iff] at h ⊢
  obtain ⟨h1, h2⟩ := h
  exact ⟨h1.symm, fun h => (h2 (h1 ▸ h)).symm⟩

theorem equal_trans {a b c : transition} (h : a.equal b = true) (h' : b.equal c = true) :
    a.equal c = true := by
  rw [equal_iff] at h h' ⊢
  obtain ⟨h1, h2⟩ := h
  obtain ⟨h3, h4⟩ := h'
  exact ⟨h1.trans h3, fun h => (h2 h).trans (h4 (h1 ▸ h))⟩

theorem equal_comm (a b : transition) : a.equal b = b.equal a := by
  cases h : a.equal b
  · cases h' : b.equal a
    · rfl
    · rw [equal_symm h'] at h; cases h
  · exact (equal_symm h).symm

/-- Equal keys are looked up alike: `k.equal t` does not change when `t` is
replaced by an equal transition. -/
theorem equal_congr_right {t u : transition} (h : t.equal u = true) (k : transition) :
    k.equal t = k.equal u := by
  cases h1 : k.equal t
  · cases h2 : k.equal u
    · rfl
    · rw [equal_trans h2 (equal_symm h)] at h1; cases h1
  · exact (equal_trans h1 h).symm

theorem find_congr {t u : transition} (h : t.equal u = true) (m : index) :
    m.find t = m.find u := by
  induction m with
  | nil => rfl
  | cons p rest ih =>
    obtain ⟨k, v⟩ := p
    simp only [index.find, equal_congr_right h k, ih]

theorem find_eq_none_iff (m : index) (t : transition) :
    m.find t = none ↔ ∀ p ∈ m, p.1.equal t = false := by
  induction m with
  | nil => simp [index.find]
  | cons p rest ih =>
    obtain ⟨k, v⟩ := p
    simp only [index.find, List.mem_cons, forall_eq_or_imp]
    cases h : k.equal t
    · simp [ih]
    · simp

theorem assign_of_find_none {m : index} {t : transition} (h : m.find t = none) (id : trans_id) :
    m.assign t id = m ++ [(t, id)] := by
  induction m with
  | nil => rfl
  | cons p rest ih =>
    obtain ⟨k, v⟩ := p
    simp only [index.find] at h
    cases hk : k.equal t
    · rw [hk] at h
      simp only [Bool.false_eq_true, if_false] at h
      simp only [index.assign, hk, Bool.false_eq_true, if_false, ih h, List.cons_append]
    · rw [hk] at h
      simp at h

theorem length_assign (m : index) (t : transition) (id : trans_id) :
    (m.assign t id).length = if m.find t = none then m.length + 1 else m.length := by
  induction m with
  | nil => simp [index.assign, index.find]
  | cons p rest ih =>
    obtain ⟨k, v⟩ := p
    cases hk : k.equal t
    · simp only [index.assign, index.find, hk, Bool.false_eq_true, if_false, List.length_cons, ih]
      split <;> rfl
    · simp [index.assign, index.find, hk]

theorem find_append (m m2 : index) (t : transition) :
    (m ++ m2).find t = (m.find t).orElse (fun _ => m2.find t) := by
  induction m with
  | nil => simp [index.find]
  | cons p rest ih =>
    obtain ⟨k, v⟩ := p
    cases hk : k.equal t
    · simp [index.find, hk, ih]
    · simp [index.find, hk]

theorem find_assign_self (m : index) (t : transition) (id : trans_id) :
    (m.assign t id).find t = some id := by
  induction m with
  | nil => simp [index.assign, index.find, equal_refl]
  | cons p rest ih =>
    obtain ⟨k, v⟩ := p
    cases hk : k.equal t
    · simp [index.assign, index.find, hk, ih]
    · simp [index.assign, index.find, hk]

theorem operator_index_of_find_some {d : transition_map} {t : transition} {id : trans_id}
    (h : d.map_.find t = some id) : operator_index d t = (id, d) := by
  simp [operator_index, h]

theorem operator_index_of_find_none {d : transition_map} {t : transition}
    (h : d.map_.find t = none) :
    operator_index d t =
      (d.map_.length, ⟨d.transitions_ ++ [t], d.map_ ++ [(t, d.map_.length)]⟩) := by
  simp [operator_index, h, assign_of_find_none h]

/-- After `operator[]` the transition is found under the id the call returned. -/
theorem find_after_operator_index (d : transition_map) (t : transition) :
    (operator_index d t).2.map_.find t = some (operator_index d t).1 := by
  cases h : d.map_.find t with
  | some id => rw [operator_index_of_find_some h]; exact h
  | none =>
    rw [operator_index_of_find_none h]
    simp [find_append, h, index.find, equal_refl]

/-- An id stored in the reverse index survives `operator[]`. -/
theorem find_stable (d : transition_map) (t u : transition) (id : trans_id)
    (h : d.map_.find u = some id) : (operator_index d t).2.map_.find u = some id := by
  cases ht : d.map_.find t with
  | some i => rw [operator_index_of_find_some ht]; exact h
  | none =>
    rw [operator_index_of_find_none ht]
    simp [find_append, h]

/-! ## Facts about consistent dictionaries -/

theorem numbered_append (s : Nat) (ts : List transition) (t : transition) :
    numbered s (ts ++ [t]) = numbered s ts ++ [(t, s + ts.length)] := by
  induction ts generalizing s with
  | nil => simp [numbered]
  | cons a ts ih =>
    show (a, s) :: numbered (s + 1) (ts ++ [t]) = (a, s) :: numbered (s + 1) ts ++ _
    rw [ih, List.length_cons, Nat.add_assoc, Nat.add_comm 1]
    rfl

theorem length_numbered (s : Nat) (ts : List transition) : (numbered s ts).length = ts.length := by
  induction ts generalizing s with
  | nil => rfl
  | cons a ts ih => simp [numbered, ih]

theorem find_numbered_eq_none_iff (s : Nat) (ts : List transition) (t : transition) :
    (numbered s ts).find t = none ↔ ∀ k ∈ ts, k.equal t = false := by
  induction ts generalizing s with
  | nil => simp [numbered, index.find]
  | cons a ts ih =>
    simp only [numbered, index.find, List.mem_cons, forall_eq_or_imp]
    cases h : a.equal t
    · simp [ih]
    · simp

theorem find_numbered_some {s : Nat} {ts : List transition} {t : transition} {i : Nat}
    (h : (numbered s ts).find t = some i) :
    ∃ (j : Nat) (k : transition), i = s + j ∧ ts.get? j = some k ∧ k.equal t = true := by
  induction ts generalizing s with
  | nil => simp [numbered, index.find] at h
  | cons a ts ih =>
    simp only [numbered, index.find] at h
    cases ha : a.equal t
    · rw [ha] at h
      simp only [Bool.false_eq_true, if_false] at h
      obtain ⟨j, k, hi, hk, he⟩ := ih h
      refine ⟨j + 1, k, ?_, by simpa using hk, he⟩
      rw [hi, Nat.add_assoc, Nat.add_comm 1]
    · rw [ha] at h
      simp only [if_true, Option.some.injEq] at h
      exact ⟨0, a, h.symm, rfl, ha⟩

theorem find_numbered_get {s : Nat} {ts : List transition}
    (hp : ts.Pairwise (fun a b => a.equal b = false)) {j : Nat} {k : transition}
    (hk : ts.get? j = some k) : (numbered s ts).find k = some (s + j) := by
  induction ts generalizing s j with
  | nil => simp at hk
  | cons a ts ih =>
    rw [List.pairwise_cons] at hp
    cases j with
    | zero =>
      simp only [List.get?_cons_zero, Option.some.injEq] at hk
      subst hk
      simp [numbered, index.find, equal_refl]
    | succ j =>
      simp only [List.get?_cons_succ] at hk
      have hmem : k ∈ ts := List.get?_mem hk
      have hne : a.equal k = false := hp.1 k hmem
      simp only [numbered, index.find, hne, Bool.false_eq_true, if_false]
      rw [ih hp.2 hk]
      congr 1
      omega

theorem consistent_empty : consistent transition_map.empty :=
  ⟨rfl, List.Pairwise.nil⟩

theorem consistent.length_eq {d : transition_map} (h : consistent d) :
    d.map_.length = d.transitions_.length := by
  rw [h.1, length_numbered]

theorem consistent_operator_index {d : transition_map} (h : consistent d) (t : transition) :
    consistent (operator_index d t).2 := by
  cases hf : d.map_.find t with
  | some id => rw [operator_index_of_find_some hf]; exact h
  | none =>
    rw [operator_index_of_find_none hf]
    constructor
    · show d.map_ ++ [(t, d.map_.length)] = numbered 0 (d.transitions_ ++ [t])
      rw [numbered_append, h.length_eq, Nat.zero_add, ← h.1]
    · show (d.transitions_ ++ [t]).Pairwise _
      rw [List.pairwise_append]
      refine ⟨h.2, List.pairwise_singleton _ _, ?_⟩
      intro a ha b hb
      rw [List.mem_singleton] at hb
      subst hb
      rw [h.1, find_numbered_eq_none_iff] at hf
      exact hf a ha

theorem consistent_interns {d : transition_map} (h : consistent d) (ts : List transition) :
    consistent (interns d ts).2 := by
  induction ts generalizing d with
  | nil => exact h
  | cons t ts ih => exact ih (consistent_operator_index h t)

theorem consistent_built (ts : List transition) : consistent (built ts) :=
  consistent_interns consistent_empty ts

theorem interns_append (d : transition_map) (ts us : List transition) :
    interns d (ts ++ us) =
      ((interns d ts).1 ++ (interns (interns d ts).2 us).1, (interns (interns d ts).2 us).2) := by
  induction ts generalizing d with
  | nil => rfl
  | cons t ts ih => simp [interns, ih]

theorem length_interns (d : transition_map) (ts : List transition) :
    (interns d ts).1.length = ts.length := by
  induction ts generalizing d with
  | nil => rfl
  | cons t ts ih => simp [interns, ih]

theorem find_stable_interns (d : transition_map) (ts : List transition) (u : transition)
    (id : trans_id) (h : d.map_.find u = some id) : (interns d ts).2.map_.find u = some id := by
  induction ts generalizing d with
  | nil => exact h
  | cons t ts ih => exact ih _ (find_stable d t u id h)

/-- The id a call returned is the id the final dictionary holds for the
transition of that call. -/
theorem interns_get (d : transition_map) (ts : List transition) (j : Nat) (t : transition)
    (h : ts.get? j = some t) :
    ∃ i, (interns d ts).1.get? j = some i ∧ (interns d ts).2.map_.find t = some i := by
  induction ts generalizing d j with
  | nil => simp at h
  | cons a ts ih =>
    cases j with
    | zero =>
      simp only [List.get?_cons_zero, Option.some.injEq] at h
      subst h
      exact ⟨(operator_index d a).1, rfl,
        find_stable_interns _ ts a _ (find_after_operator_index d a)⟩
    | succ j =>
      simp only [List.get?_cons_succ] at h
      obtain ⟨i, h1, h2⟩ := ih (operator_index d a).2 j h
      exact ⟨i, by simpa [interns] using h1, h2⟩

/-- Every entry of the sequence of a dictionary grown by `operator[]` calls is
an old entry or one of the transitions passed in. -/
theorem mem_transitions_interns (d : transition_map) (ts : List transition) (k : transition)
    (h : k ∈ (interns d ts).2.transitions_) : k ∈ d.transitions_ ∨ k ∈ ts := by
  induction ts generalizing d with
  | nil => exact Or.inl h
  | cons t ts ih =>
    rcases ih (operator_index d t).2 h with h1 | h1
    · cases hf : d.map_.find t with
      | some id => rw [operator_index_of_find_some hf] at h1; exact Or.inl h1
      | none =>
        rw [operator_index_of_find_none hf] at h1
        simp only [List.mem_append, List.mem_singleton] at h1
        rcases h1 with h1 | h1
        · exact Or.inl h1
        · exact Or.inr (h1 ▸ List.mem_cons_self _ _)
    · exact Or.inr (List.mem_cons_of_mem _ h1)

theorem equal_iff_reloaded (a b : transition) :
    a.equal b = true ↔ a.reloaded = b.reloaded := by
  rw [equal_iff]
  obtain ⟨ka, la⟩ := a
  obtain ⟨kb, lb⟩ := b
  simp only [transition.reloaded, transition.of_type]
  constructor
  · rintro ⟨h1, h2⟩
    subst h1
    cases h : carries_label ka
    · simp
    · simp [h2 h]
  · intro h
    cases hc : carries_label ka
    · rw [hc] at h
      simp only [Bool.false_eq_true, if_false] at h
      split at h
      · simp only [transition.mk.injEq] at h
        exact ⟨h.1, fun h' => by cases h'⟩
      · simp only [transition.mk.injEq] at h
        exact ⟨h.1, fun h' => by cases h'⟩
    · rw [hc] at h
      simp only [if_true] at h
      split at h
      · simp only [transition.mk.injEq] at h
        exact ⟨h.1, fun _ => h.2⟩
      · rename_i hb
        simp only [transition.mk.injEq] at h
        rw [← h.1, hc] at hb
        exact absurd rfl hb

theorem count_distinct_eq_card (ts : List transition) :
    count_distinct ts = (ts.map transition.reloaded).toFinset.card := by
  induction ts with
  | nil => rfl
  | cons t ts ih =>
    simp only [count_distinct, List.map_cons, List.toFinset_cons]
    by_cases h : ts.any (fun u => u.equal t) = true
    · have hm : t.reloaded ∈ (ts.map transition.reloaded).toFinset := by
        rw [List.any_eq_true] at h
        obtain ⟨u, hu, he⟩ := h
        rw [List.mem_toFinset, List.mem_map]
        exact ⟨u, hu, (equal_iff_reloaded u t).1 he⟩
      rw [Finset.card_insert_of_mem hm, if_pos h, ih, Nat.zero_add]
    · have hm : t.reloaded ∉ (ts.map transition.reloaded).toFinset := by
        intro hm
        rw [List.mem_toFinset, List.mem_map] at hm
        obtain ⟨u, hu, he⟩ := hm
        exact h (List.any_eq_true.2 ⟨u, hu, (equal_iff_reloaded u t).2 he⟩)
      rw [Finset.card_insert_of_not_mem hm, if_neg h, ih, Nat.add_comm]

/-- The sequence of a dictionary built by `operator[]` calls has one entry per
distinct transition passed in. -/
theorem length_built (ts : List transition) :
    (built ts).transitions_.length = count_distinct ts := by
  have hc := consistent_built ts
  have hnd : ((built ts).transitions_.map transition.reloaded).Nodup := by
    refine List.Pairwise.map _ ?_ hc.2
    intro a b hab he
    rw [(equal_iff_reloaded a b).2 he] at hab
    cases hab
  have hl : ((built ts).transitions_.map transition.reloaded).length
      = (built ts).transitions_.length := List.length_map _ _
  rw [count_distinct_eq_card, ← hl, ← List.toFinset_card_of_nodup hnd]
  congr 1
  ext x
  simp only [List.mem_toFinset, List.mem_map]
  constructor
  · rintro ⟨k, hk, rfl⟩
    rcases mem_transitions_interns transition_map.empty ts k hk with h | h
    · cases h
    · exact ⟨k, h, rfl⟩
  · rintro ⟨t, ht, rfl⟩
    obtain ⟨j, hj⟩ := List.mem_iff_getElem?.1 ht
    obtain ⟨i, _, hf⟩ := interns_get transition_map.empty ts j t (by simpa using hj)
    have hf2 : (built ts).map_.find t = some i := hf
    rw [hc.1] at hf2
    obtain ⟨p, k, _, hk, hkt⟩ := find_numbered_some hf2
    exact ⟨k, List.get?_mem hk, (equal_iff_reloaded k t).1 hkt⟩

/-- The id returned by a call is the number of distinct transitions that come
before the first occurrence of the transition of that call. -/
theorem interns_get_eq (ts : List transition) (j : Nat) (t : transition)
    (h : ts.get? j = some t) :
    (interns transition_map.empty ts).1.get? j
      = some (count_distinct (ts.take (first_occurrence ts t))) := by
  obtain ⟨i, hi, hfi⟩ := interns_get transition_map.empty ts j t h
  rw [hi]
  congr 1
  have hex : ∃ x ∈ ts, (fun u : transition => u.equal t) x = true :=
    ⟨t, List.get?_mem h, equal_refl t⟩
  have hlt : first_occurrence ts t < ts.length := List.findIdx_lt_length_of_exists hex
  have hx : (ts[first_occurrence ts t]).equal t = true :=
    List.findIdx_getElem (p := fun u : transition => u.equal t) (w := hlt)
  have hsplit : ts = ts.take (first_occurrence ts t) ++
      (ts[first_occurrence ts t] :: ts.drop (first_occurrence ts t + 1)) := by
    rw [← List.drop_eq_getElem_cons hlt, List.take_append_drop]
  generalize hpre : ts.take (first_occurrence ts t) = pre at hsplit
  generalize hxe : ts[first_occurrence ts t] = x at hsplit hx
  have hnone : (built pre).map_.find x = none := by
    rw [(consistent_built pre).1, find_numbered_eq_none_iff]
    intro k hk
    rcases mem_transitions_interns transition_map.empty pre k hk with h1 | h1
    · cases h1
    · rw [equal_congr_right hx k] at *
      rw [← hpre, List.mem_take_iff_getElem] at h1
      obtain ⟨m, hm, rfl⟩ := h1
      have hm2 : m < first_occurrence ts t := by omega
      have := List.not_of_lt_findIdx (p := fun u : transition => u.equal t) hm2
      simpa using this
  have hfin : (interns transition_map.empty ts).2.map_.find x
      = some (count_distinct pre) := by
    conv_lhs => rw [hsplit]
    rw [interns_append]
    show (interns (operator_index (built pre) x).2 _).2.map_.find x = _
    apply find_stable_interns
    have := find_after_operator_index (built pre) x
    rw [this, operator_index_of_find_none hnone, (consistent_built pre).length_eq,
      length_built]
  rw [find_congr hx] at hfin
  rw [hfin] at hfi
  exact (Option.some.inj hfi).symm

/-! ## Facts about the persisted layout -/

theorem length_le_bytes (k n : Nat) : (le_bytes k n).length = k := by
  induction k generalizing n with
  | zero => rfl
  | succ k ih => simp [le_bytes, ih]

theorem le_value_le_bytes (k n : Nat) : le_value (le_bytes k n) = n % 256 ^ k := by
  induction k generalizing n with
  | zero => simp [le_bytes, le_value, Nat.mod_one]
  | succ k ih =>
    simp only [le_bytes, le_value, ih]
    rw [Nat.pow_succ, Nat.mul_comm (256 ^ k) 256, Nat.mod_mul]

theorem length_write_u64 (n : Nat) : (write_u64 n).length = 8 := length_le_bytes 8 _

theorem read_u64_write_u64 (n : Nat) (rest : List Byte) (hn : n < 2 ^ 64) :
    read_u64 ⟨write_u64 n ++ rest, false⟩ = (some n, ⟨rest, false⟩) := by
  have hl := length_write_u64 n
  have hv : le_value (write_u64 n) = n := by
    rw [write_u64, le_value_le_bytes, Nat.mod_eq_of_lt hn]
    exact Nat.mod_eq_of_lt hn
  simp only [read_u64, Bool.false_eq_true, if_false, List.length_append, hl,
    Nat.le_add_right, if_true, List.take_left' hl, List.drop_left' hl, hv]

theorem read_type_write_type (k : type_t) (rest : List Byte) :
    read_type ⟨write_type k ++ rest, false⟩ = (some k, ⟨rest, false⟩) := by
  simp [read_type, write_type]

theorem read_string_write_string (l : class_label) (rest : List Byte)
    (hl : l.length < 2 ^ 64) :
    read_string ⟨write_string l ++ rest, false⟩ = (some l, ⟨rest, false⟩) := by
  simp only [read_string, write_string, List.append_assoc, read_u64_write_u64 _ _ hl]
  simp

/-- One pass of the loop body of `load` over the bytes `save` wrote for one
entry consumes exactly those bytes and appends the reconstructed entry. -/
theorem load_entry_save_entry (junk : indeterminate) (e : transition) (rest : List Byte)
    (d : transition_map) (hl : carries_label e.type = true → e.label.length < 2 ^ 64) :
    load_entry junk ⟨save_entry e ++ rest, false⟩ d =
      (⟨d.transitions_ ++ [e.reloaded], d.map_.assign e.reloaded d.map_.length⟩,
        ⟨rest, false⟩) := by
  cases hc : carries_label e.type
  · simp [load_entry, save_entry, read_type_write_type, hc, transition.reloaded]
  · simp [load_entry, save_entry, read_type_write_type, hc, transition.reloaded,
      read_string_write_string _ _ (hl hc)]

/-- The loop of `load` over the bytes of complete entries: after one
iteration per entry it continues on the bytes that follow them. -/
theorem load_loop_save_entries (junk : indeterminate) (es : List transition) (m : Nat)
    (rest : List Byte) (d : transition_map)
    (hl : ∀ e ∈ es, carries_label e.type = true → e.label.length < 2 ^ 64) :
    load_loop junk (es.length + m) ⟨save_entries es ++ rest, false⟩ d =
      load_loop junk m ⟨rest, false⟩ (loaded d (es.map transition.reloaded)) := by
  induction es generalizing d with
  | nil => simp [save_entries, loaded]
  | cons e es ih =>
    have h1 : (e :: es).length + m = (es.length + m) + 1 := by simp; omega
    have h2 : save_entries (e :: es) ++ rest = save_entry e ++ (save_entries es ++ rest) := by
      simp [save_entries]
    rw [h1, h2, load_loop]
    simp only [Bool.false_eq_true, if_false]
    rw [load_entry_save_entry junk e _ d (hl e (List.mem_cons_self _ _))]
    rw [ih _ (fun e' he' => hl e' (List.mem_cons_of_mem _ he'))]
    rfl

theorem load_stream_count (junk : indeterminate) (n : Nat) (rest : List Byte)
    (hn : n < 2 ^ 64) :
    load_stream junk ⟨write_u64 n ++ rest, false⟩ =
      load_loop junk n ⟨rest, false⟩ transition_map.empty := by
  simp [load_stream, read_u64_write_u64 _ _ hn]

/-- On a count followed by that many complete entries `load` succeeds, runs
the loop body once per entry and leaves the stream at the bytes that follow. -/
theorem load_stream_complete (junk : indeterminate) (es : List transition) (rest : List Byte)
    (hfit : fits es) :
    load_stream junk ⟨write_u64 es.length ++ save_entries es ++ rest, false⟩ =
      .ok (loaded transition_map.empty (es.map transition.reloaded), ⟨rest, false⟩) := by
  rw [List.append_assoc, load_stream_count _ _ _ hfit.1]
  have := load_loop_save_entries junk es 0 rest transition_map.empty hfit.2
  rw [Nat.add_zero] at this
  rw [this]
  rfl

theorem transitions_loaded (d : transition_map) (es : List transition) :
    (loaded d es).transitions_ = d.transitions_ ++ es := by
  induction es generalizing d with
  | nil => simp [loaded]
  | cons e es ih => simp [loaded, ih]

/-- On entries that are new and pairwise different the loop body of `load`
does what `operator[]` does. -/
theorem loaded_eq_interns {d : transition_map} (hd : consistent d) (es : List transition)
    (hp : (d.transitions_ ++ es).Pairwise (fun a b => a.equal b = false)) :
    loaded d es = (interns d es).2 := by
  induction es generalizing d with
  | nil => rfl
  | cons e es ih =>
    have hnone : d.map_.find e = none := by
      rw [hd.1, find_numbered_eq_none_iff]
      intro k hk
      rw [List.pairwise_append] at hp
      exact hp.2.2 k hk e (List.mem_cons_self _ _)
    have hstep : (operator_index d e).2 =
        ⟨d.transitions_ ++ [e], d.map_.assign e d.map_.length⟩ := by
      rw [operator_index_of_find_none hnone, assign_of_find_none hnone]
    have hc := consistent_operator_index hd e
    rw [hstep] at hc
    show loaded ⟨d.transitions_ ++ [e], d.map_.assign e d.map_.length⟩ es
      = (interns (operator_index d e).2 es).2
    rw [hstep]
    apply ih hc
    simpa using hp

theorem equal_reloaded_left (a b : transition) : a.reloaded.equal b = a.equal b := by
  obtain ⟨k, l⟩ := a
  cases hc : carries_label k <;>
    simp [transition.reloaded, transition.of_type, transition.equal, hc]

theorem equal_reloaded_right (a b : transition) : a.equal b.reloaded = a.equal b := by
  rw [equal_comm, equal_reloaded_left, equal_comm]

theorem find_numbered_map_reloaded (s : Nat) (ts : List transition) (t : transition) :
    (numbered s (ts.map transition.reloaded)).find t = (numbered s ts).find t := by
  induction ts generalizing s with
  | nil => rfl
  | cons a ts ih => simp [numbered, index.find, equal_reloaded_left, ih]

theorem pairwise_map_reloaded {ts : List transition}
    (hp : ts.Pairwise (fun a b => a.equal b = false)) :
    (ts.map transition.reloaded).Pairwise (fun a b => a.equal b = false) := by
  refine List.Pairwise.map _ ?_ hp
  intro a b hab
  rw [equal_reloaded_left, equal_reloaded_right]
  exact hab

/-- Loading pairwise different entries into an empty dictionary yields a
dictionary whose members agree and whose sequence is the entries in order. -/
theorem loaded_distinct {es : List transition}
    (hp : es.Pairwise (fun a b => a.equal b = false)) :
    consistent (loaded transition_map.empty es) ∧
      (loaded transition_map.empty es).transitions_ = es := by
  have h := loaded_eq_interns consistent_empty es (by simpa [transition_map.empty] using hp)
  refine ⟨?_, by simp [transitions_loaded, transition_map.empty]⟩
  rw [h]
  exact consistent_interns consistent_empty es

/-- On a count followed by fewer complete entries than it declares and
nothing else, the loop of `load` runs once per entry present and then goes on,
for the entries that are missing, on the exhausted stream. -/
theorem load_stream_entries (junk : indeterminate) (es : List transition) (m : Nat)
    (hn : es.length + m < 2 ^ 64)
    (hl : ∀ e ∈ es, carries_label e.type = true → e.label.length < 2 ^ 64) :
    load_stream junk ⟨write_u64 (es.length + m) ++ save_entries es, false⟩ =
      load_loop junk m ⟨[], false⟩ (loaded transition_map.empty (es.map transition.reloaded)) := by
  rw [load_stream_count _ _ _ hn]
  have := load_loop_save_entries junk es m [] transition_map.empty hl
  rw [List.append_nil] at this
  exact this

/-! ## Facts about lookups and the written layout -/

/-- A transition is found in a dictionary built by `operator[]` calls exactly
when an equal one was passed to a call. -/
theorem find_built_eq_none_iff (ts : List transition) (t : transition) :
    (built ts).map_.find t = none ↔ ∀ u ∈ ts, u.equal t = false := by
  have hc := consistent_built ts
  rw [hc.1, find_numbered_eq_none_iff]
  constructor
  · intro h u hu
    obtain ⟨j, hj⟩ := List.mem_iff_getElem?.1 hu
    obtain ⟨i, _, hf⟩ := interns_get transition_map.empty ts j u (by simpa using hj)
    have hf2 : (built ts).map_.find u = some i := hf
    rw [hc.1] at hf2
    obtain ⟨p, k, _, hk, hku⟩ := find_numbered_some hf2
    have hkt := h k (List.get?_mem hk)
    cases hut : u.equal t
    · rfl
    · rw [equal_trans hku hut] at hkt
      cases hkt
  · intro h k hk
    rcases mem_transitions_interns transition_map.empty ts k hk with h1 | h1
    · cases h1
    · exact h k h1

theorem save_entry_eq_layout_entry (t : transition) : save_entry t = layout_entry t := by
  obtain ⟨k, l⟩ := t
  by_cases h : k = type_t.REDUCE_L ∨ k = type_t.REDUCE_R ∨ k = type_t.UNARY
  · have hc : carries_label k = true := by
      simp only [carries_label, Bool.or_eq_true, beq_iff_eq]
      tauto
    simp [save_entry, layout_entry, h, hc, write_type, write_string, write_u64]
  · have hc : carries_label k = false := by
      cases hk : carries_label k
      · rfl
      · simp only [carries_label, Bool.or_eq_true, beq_iff_eq] at hk
        exact absurd (by tauto) h
    simp [save_entry, layout_entry, h, hc, write_type]

theorem save_entries_eq_layout_entries (ts : List transition) :
    save_entries ts = layout_entries ts := by
  induction ts with
  | nil => rfl
  | cons t ts ih =>
    have : save_entries (t :: ts) = save_entry t ++ save_entries ts := by
      simp [save_entries]
    rw [this, ih, save_entry_eq_layout_entry]
    rfl

theorem save_entry_reloaded (e : transition) : save_entry e.reloaded = save_entry e := by
  obtain ⟨k, l⟩ := e
  cases hc : carries_label k <;>
    simp [save_entry, transition.reloaded, transition.of_type, hc]

theorem save_entries_map_reloaded (es : List transition) :
    save_entries (es.map transition.reloaded) = save_entries es := by
  induction es with
  | nil => rfl
  | cons e es ih =>
    simp only [save_entries, List.map_cons, List.flatten_cons, save_entry_reloaded] at ih ⊢
    rw [ih]

/-- A tag outside the three label-carrying kinds makes the loop body of `load`
consume that one byte and append the unlabeled transition of that kind. -/
theorem load_entry_unlabeled (junk : indeterminate) (k : type_t) (bs : List Byte)
    (d : transition_map) (hk : carries_label k = false) :
    load_entry junk ⟨k :: bs, false⟩ d =
      (⟨d.transitions_ ++ [transition.of_type k],
        d.map_.assign (transition.of_type k) d.map_.length⟩, ⟨bs, false⟩) := by
  simp [load_entry, read_type, hk]

/-- The `switch` takes the label branch exactly for the three kinds its `case`
labels name. -/
theorem carries_label_iff (k : type_t) :
    carries_label k = true ↔
      k = type_t.REDUCE_L ∨ k = type_t.REDUCE_R ∨ k = type_t.UNARY := by
  simp only [carries_label, Bool.or_eq_true, beq_iff_eq]
  tauto

/-! ## The claims -/

/-- C1 (round trip): for a dictionary built from an empty one by `operator[]`
calls whose contents fit the layout, `load` on the bytes `save` wrote succeeds
and yields a dictionary with the same `size()`, whose `at(i)` equals the
original `at(i)` under the equality contract for every id below the size, and
whose `at(t)` agrees with the original for every transition `t`, with a
result for each interned one. -/
theorem save_load_round_trip (junk : indeterminate) (ts : List transition)
    (hfit : fits (built ts).transitions_) :
    ∃ r, load junk ⟨save (built ts), false⟩ = .ok r ∧
      size r = size (built ts) ∧
      size r = some (built ts).transitions_.length ∧
      (∀ i : Nat, i < (built ts).transitions_.length →
        ∃ a b, at_id r i = some a ∧ at_id (built ts) i = some b ∧ a.equal b = true) ∧
      (∀ t, at_trans r t = at_trans (built ts) t) ∧
      (∀ t ∈ ts, ∃ i, at_trans r t = some i) := by
  have hc := consistent_built ts
  have hload := load_stream_complete junk (built ts).transitions_ [] hfit
  rw [List.append_nil] at hload
  obtain ⟨hr, htr⟩ := loaded_distinct (pairwise_map_reloaded hc.2)
  generalize loaded transition_map.empty
    ((built ts).transitions_.map transition.reloaded) = r at hload hr htr
  have hsz : size r = some (built ts).transitions_.length := by
    simp [size, hr.length_eq, htr]
  have hfind : ∀ t, at_trans r t = at_trans (built ts) t := by
    intro t
    show r.map_.find t = (built ts).map_.find t
    rw [hr.1, htr, find_numbered_map_reloaded, ← hc.1]
  refine ⟨r, ?_, ?_, hsz, ?_, hfind, ?_⟩
  · simp [load, save, hload, Except.map]
  · rw [hsz]; simp [size, hc.length_eq]
  · intro i hi
    refine ⟨((built ts).transitions_[i]).reloaded, (built ts).transitions_[i], ?_, ?_, ?_⟩
    · simp [at_id, htr, hi]
    · simp [at_id, hi]
    · rw [equal_reloaded_left]; exact equal_refl _
  · intro t ht
    obtain ⟨j, hj⟩ := List.mem_iff_getElem?.1 ht
    obtain ⟨i, _, hf⟩ := interns_get transition_map.empty ts j t (by simpa using hj)
    exact ⟨i, by rw [hfind]; exact hf⟩


/-- The round trip on the dictionary of SHIFT, REDUCE-LEFT(NP), REDUCE-LEFT(VP),
SHIFT: the reloaded dictionary has three entries, SHIFT under id 0 and
REDUCE-LEFT(NP) at id 1. -/
theorem save_load_round_trip_witness :
    ∃ r, load ⟨type_t.IDLE, []⟩
        ⟨save (built [⟨type_t.SHIFT, []⟩, ⟨type_t.REDUCE_L, [78, 80]⟩,
          ⟨type_t.REDUCE_L, [86, 80]⟩, ⟨type_t.SHIFT, []⟩]), false⟩ = .ok r ∧
      size r = some 3 ∧
      at_trans r ⟨type_t.SHIFT, []⟩ = some 0 ∧
      ∃ a, at_id r 1 = some a ∧ a.equal ⟨type_t.REDUCE_L, [78, 80]⟩ = true := by
  obtain ⟨r, h1, _, h3, h4, h5, _⟩ := save_load_round_trip ⟨type_t.IDLE, []⟩
    [⟨type_t.SHIFT, []⟩, ⟨type_t.REDUCE_L, [78, 80]⟩, ⟨type_t.REDUCE_L, [86, 80]⟩,
      ⟨type_t.SHIFT, []⟩] (by unfold fits; decide)
  refine ⟨r, h1, h3.trans (by decide), ?_, ?_⟩
  · rw [h5]; decide
  · obtain ⟨a, b, ha, hb, hab⟩ := h4 1 (by decide)
    have hb2 : b = ⟨type_t.REDUCE_L, [78, 80]⟩ :=
      Option.some.inj (hb.symm.trans (by decide))
    exact ⟨a, ha, hb2 ▸ hab⟩

/-- C2 (malformed input detection), evaluated where it fails: on a store that
declares three entries and holds two complete ones, the third missing
entirely, `load` throws nothing and returns a dictionary of three entries,
whatever the unread tag variable holds; with five entries declared the same
bytes are rejected as too few. -/
theorem load_last_entry_missing (junk : indeterminate) :
    (∃ d, load junk
        ⟨write_u64 3 ++ save_entries [⟨type_t.SHIFT, []⟩, ⟨type_t.REDUCE_L, [78, 80]⟩], false⟩
        = .ok d ∧ d.transitions_.length = 3) ∧
    load junk
        ⟨write_u64 5 ++ save_entries [⟨type_t.SHIFT, []⟩, ⟨type_t.REDUCE_L, [78, 80]⟩], false⟩
        = .error .too_few_transitions := by
  have hl : ∀ e ∈ [(⟨type_t.SHIFT, []⟩ : transition), ⟨type_t.REDUCE_L, [78, 80]⟩],
      carries_label e.type = true → e.label.length < 2 ^ 64 := by decide
  constructor
  · have h : load_stream junk
        ⟨write_u64 3 ++ save_entries [⟨type_t.SHIFT, []⟩, ⟨type_t.REDUCE_L, [78, 80]⟩], false⟩
        = load_loop junk 1 ⟨[], false⟩ _ :=
      load_stream_entries junk [⟨type_t.SHIFT, []⟩, ⟨type_t.REDUCE_L, [78, 80]⟩] 1
        (by decide) hl
    simp only [load, h, load_loop, Bool.false_eq_true, if_false, Except.map]
    exact ⟨_, rfl, by simp [load_entry, transitions_loaded, transition_map.empty]⟩
  · have h : load_stream junk
        ⟨write_u64 5 ++ save_entries [⟨type_t.SHIFT, []⟩, ⟨type_t.REDUCE_L, [78, 80]⟩], false⟩
        = load_loop junk 3 ⟨[], false⟩ _ :=
      load_stream_entries junk [⟨type_t.SHIFT, []⟩, ⟨type_t.REDUCE_L, [78, 80]⟩] 3
        (by decide) hl
    have hfail : ∀ d, (load_entry junk ⟨[], false⟩ d).2.fail = true := by
      intro d
      cases hc : carries_label junk.type <;>
        simp [load_entry, read_type, read_string, read_u64, istream.failed, hc]
    simp only [load, h, load_loop, Bool.false_eq_true, if_false, hfail, if_true, Except.map]

/-- C3 (load assigns ids by read position), evaluated where it fails: on a
store that declares three entries and holds SHIFT, SHIFT, UNARY(S), `load`
succeeds and `at(2)` is UNARY(S), the entry read at position 2, yet `at` of
UNARY(S) is 1, the size the reverse index had when the entry was read, and
`at(1)` is SHIFT; `at` of SHIFT, read at positions 0 and 1, is 1. -/
theorem load_id_not_read_position (junk : indeterminate) :
    ∃ d, load junk
        ⟨write_u64 3 ++ [type_t.SHIFT, type_t.SHIFT, type_t.UNARY] ++ write_u64 1 ++ [83],
          false⟩ = .ok d ∧
      at_id d 2 = some ⟨type_t.UNARY, [83]⟩ ∧
      at_trans d ⟨type_t.UNARY, [83]⟩ = some 1 ∧
      at_id d 1 = some ⟨type_t.SHIFT, []⟩ ∧
      at_id d 0 = some ⟨type_t.SHIFT, []⟩ ∧
      at_trans d ⟨type_t.SHIFT, []⟩ = some 1 :=
  ⟨⟨[⟨type_t.SHIFT, []⟩, ⟨type_t.SHIFT, []⟩, ⟨type_t.UNARY, [83]⟩],
      [(⟨type_t.SHIFT, []⟩, 1), (⟨type_t.UNARY, [83]⟩, 1)]⟩,
    rfl, by decide, by decide, by decide, by decide, by decide⟩

/-- C4 (size invariant), evaluated where it fails: `load` succeeds on a store
that declares two entries and holds SHIFT twice, and leaves a sequence of two
entries with a reverse index of one, so the assertion in `size()` fails. -/
theorem load_breaks_size_invariant :
    ∃ d, load ⟨type_t.IDLE, []⟩
        ⟨write_u64 2 ++ save_entries [⟨type_t.SHIFT, []⟩, ⟨type_t.SHIFT, []⟩], false⟩ = .ok d ∧
      d.transitions_.length = 2 ∧ d.map_.length = 1 ∧ size d = none :=
  ⟨⟨[⟨type_t.SHIFT, []⟩, ⟨type_t.SHIFT, []⟩], [(⟨type_t.SHIFT, []⟩, 1)]⟩,
    rfl, by decide, by decide, by decide⟩

/-- C5 (dense numbering): in a dictionary built from an empty one by
`operator[]` calls, `size()` returns some `n` (its assertion holds), `at(i)`
succeeds exactly for the ids `i < n`, and the transition stored at a valid id
`i` is looked up as `i`. -/
theorem built_dense (ts : List transition) :
    ∃ n : Nat, size (built ts) = some n ∧
      ∀ i : Nat, ((at_id (built ts) i).isSome = true ↔ i < n) ∧
        ∀ t, at_id (built ts) i = some t → at_trans (built ts) t = some i := by
  have hc := consistent_built ts
  refine ⟨(built ts).map_.length, by simp [size, hc.length_eq], fun i => ⟨?_, ?_⟩⟩
  · rw [hc.length_eq]
    simp only [at_id, List.get?_eq_getElem?]
    constructor
    · intro h
      by_contra hlt
      rw [List.getElem?_eq_none (by omega)] at h
      cases h
    · intro h
      rw [List.getElem?_eq_getElem h]
      rfl
  · intro t ht
    have := find_numbered_get (s := 0) hc.2 ht
    rw [← hc.1, Nat.zero_add] at this
    exact this

/-- C6 (intern of a new transition): when both members have the same size and
`t` is not in the reverse index, `operator[]` returns the size `n` the
dictionary had before the call, and afterwards `size()` is `n + 1`, `at(n)` is
`t` and `at(t)` is `n`. -/
theorem operator_index_new (d : transition_map) (t : transition)
    (hsz : d.map_.length = d.transitions_.length) (habs : at_trans d t = none) :
    ∃ n, size d = some n ∧ (operator_index d t).1 = n ∧
      size (operator_index d t).2 = some (n + 1) ∧
      at_id (operator_index d t).2 n = some t ∧
      at_trans (operator_index d t).2 t = some n := by
  refine ⟨d.map_.length, by simp [size, hsz], ?_⟩
  have h : d.map_.find t = none := habs
  refine ⟨?_, ?_, ?_, ?_⟩
  · rw [operator_index_of_find_none h]
  · rw [operator_index_of_find_none h]; simp [size, hsz]
  · rw [operator_index_of_find_none h]; simp [at_id, hsz]
  · have := find_after_operator_index d t
    rw [operator_index_of_find_none h] at this ⊢
    exact this

/-- Interning REDUCE-LEFT(NP) into the dictionary that holds SHIFT only. -/
theorem operator_index_new_witness :
    ∃ n, size (built [⟨type_t.SHIFT, []⟩]) = some n ∧
      (operator_index (built [⟨type_t.SHIFT, []⟩]) ⟨type_t.REDUCE_L, [78, 80]⟩).1 = n ∧
      size (operator_index (built [⟨type_t.SHIFT, []⟩]) ⟨type_t.REDUCE_L, [78, 80]⟩).2
        = some (n + 1) ∧
      at_id (operator_index (built [⟨type_t.SHIFT, []⟩]) ⟨type_t.REDUCE_L, [78, 80]⟩).2 n
        = some ⟨type_t.REDUCE_L, [78, 80]⟩ ∧
      at_trans (operator_index (built [⟨type_t.SHIFT, []⟩]) ⟨type_t.REDUCE_L, [78, 80]⟩).2
        ⟨type_t.REDUCE_L, [78, 80]⟩ = some n :=
  operator_index_new (built [⟨type_t.SHIFT, []⟩]) ⟨type_t.REDUCE_L, [78, 80]⟩
    (by decide) (by decide)

/-- C7 (interning idempotence): two `operator[]` calls in succession with the
same transition return the same id, the second call changes neither member,
and over the two calls each member (hence `size()`) grows by one when the
transition was absent and by nothing when it was present. -/
theorem operator_index_twice (d : transition_map) (t : transition) :
    (operator_index (operator_index d t).2 t).1 = (operator_index d t).1 ∧
    (operator_index (operator_index d t).2 t).2 = (operator_index d t).2 ∧
    (operator_index (operator_index d t).2 t).2.transitions_.length =
      d.transitions_.length + (if at_trans d t = none then 1 else 0) ∧
    (operator_index (operator_index d t).2 t).2.map_.length =
      d.map_.length + (if at_trans d t = none then 1 else 0) ∧
    (∀ n, size d = some n →
      size (operator_index (operator_index d t).2 t).2 =
        some (n + (if at_trans d t = none then 1 else 0))) := by
  have h2 := operator_index_of_find_some (find_after_operator_index d t)
  rw [h2]
  refine ⟨rfl, rfl, ?_⟩
  cases h : d.map_.find t with
  | some id =>
    have hn : at_trans d t ≠ none := by simp [at_trans, h]
    rw [operator_index_of_find_some h]
    simp only [hn, if_false, Nat.add_zero, true_and]
    intro n hs; exact hs
  | none =>
    have hn : at_trans d t = none := h
    rw [operator_index_of_find_none h]
    simp only [hn, if_true, List.length_append, List.length_singleton, true_and]
    intro n hs
    simp only [size] at hs ⊢
    split at hs
    · rename_i he
      simp only [Option.some.injEq] at hs
      subst hs
      simp [he]
    · cases hs

/-- C8 (first-seen order): in a run of `operator[]` calls on an empty
dictionary, the call at position `j` returns the number of distinct
transitions that come before the first occurrence of its transition, and the
final `size()` is the number of distinct transitions; interning SHIFT,
REDUCE-LEFT(NP), REDUCE-LEFT(VP), SHIFT returns 0, 1, 2, 0 and leaves
`size() == 3`. -/
theorem interns_first_seen (ts : List transition) :
    (∀ (j : Nat) (t : transition), ts.get? j = some t →
      (interns transition_map.empty ts).1.get? j
        = some (count_distinct (ts.take (first_occurrence ts t)))) ∧
    size (built ts) = some (count_distinct ts) ∧
    (interns transition_map.empty
      [⟨type_t.SHIFT, []⟩, ⟨type_t.REDUCE_L, [78, 80]⟩, ⟨type_t.REDUCE_L, [86, 80]⟩,
        ⟨type_t.SHIFT, []⟩]).1 = [0, 1, 2, 0] ∧
    size (built
      [⟨type_t.SHIFT, []⟩, ⟨type_t.REDUCE_L, [78, 80]⟩, ⟨type_t.REDUCE_L, [86, 80]⟩,
        ⟨type_t.SHIFT, []⟩]) = some 3 := by
  refine ⟨fun j t h => interns_get_eq ts j t h, ?_, by decide, by decide⟩
  have hc := consistent_built ts
  simp [size, hc.length_eq, length_built]

/-- C9 (id stability): `operator[]` leaves `at(i)` unchanged for every id
below the size of the sequence, and `at(u)` unchanged for every transition
`u` that was in the reverse index before the call. -/
theorem operator_index_stable (d : transition_map) (t : transition) :
    (∀ i, i < d.transitions_.length → at_id (operator_index d t).2 i = at_id d i) ∧
    (∀ u id, at_trans d u = some id → at_trans (operator_index d t).2 u = some id) := by
  constructor
  · intro i hi
    cases h : d.map_.find t with
    | some id => rw [operator_index_of_find_some h]
    | none =>
      rw [operator_index_of_find_none h]
      simp only [at_id, List.get?_eq_getElem?]
      exact List.getElem?_append_left hi
  · intro u id h
    exact find_stable d t u id h

/-- Interning IDLE into the dictionary that holds SHIFT only leaves id 0 and
the lookup of SHIFT as they were. -/
theorem operator_index_stable_witness :
    at_id (operator_index (built [⟨type_t.SHIFT, []⟩]) ⟨type_t.IDLE, []⟩).2 0
      = at_id (built [⟨type_t.SHIFT, []⟩]) 0 ∧
    at_trans (operator_index (built [⟨type_t.SHIFT, []⟩]) ⟨type_t.IDLE, []⟩).2
      ⟨type_t.SHIFT, [7]⟩ = some 0 :=
  ⟨(operator_index_stable (built [⟨type_t.SHIFT, []⟩]) ⟨type_t.IDLE, []⟩).1 0 (by decide),
   (operator_index_stable (built [⟨type_t.SHIFT, []⟩]) ⟨type_t.IDLE, []⟩).2
     ⟨type_t.SHIFT, [7]⟩ 0 (by decide)⟩

/-- C10 (collision-free ids): in a run of `operator[]` calls on an empty
dictionary, the calls at positions `a` and `b` return the same id exactly when
their transitions are equal under the equality contract; so two transitions
of one kind that carries no label get the same id, and two transitions of one
label-carrying kind with different labels get different ids. -/
theorem interns_collision_free (ts : List transition) (a b : Nat) (t u : transition)
    (ha : ts.get? a = some t) (hb : ts.get? b = some u) :
    ∃ i j, (interns transition_map.empty ts).1.get? a = some i ∧
      (interns transition_map.empty ts).1.get? b = some j ∧
      (i = j ↔ t.equal u = true) ∧
      (t.type = u.type → carries_label t.type = false → i = j) ∧
      (t.type = u.type → carries_label t.type = true → t.label ≠ u.label → i ≠ j) := by
  obtain ⟨i, hi, hfi⟩ := interns_get transition_map.empty ts a t ha
  obtain ⟨j, hj, hfj⟩ := interns_get transition_map.empty ts b u hb
  have hc : consistent (interns transition_map.empty ts).2 := consistent_built ts
  have key : i = j ↔ t.equal u = true := by
    constructor
    · intro hij
      subst hij
      rw [hc.1] at hfi hfj
      obtain ⟨p, k, hp, hk, hkt⟩ := find_numbered_some hfi
      obtain ⟨q, l, hq, hl, hlu⟩ := find_numbered_some hfj
      have hpq : p = q := by omega
      subst hpq
      rw [hk] at hl
      cases hl
      exact equal_trans (equal_symm hkt) hlu
    · intro he
      rw [find_congr he, hfj] at hfi
      cases hfi
      rfl
  refine ⟨i, j, hi, hj, key, ?_, ?_⟩
  · intro hty hcl
    rw [key, equal_iff]
    exact ⟨hty, fun h => by rw [hcl] at h; cases h⟩
  · intro _ hcl hne hij
    rw [key, equal_iff] at hij
    exact hne (hij.2 hcl)

/-- The two SHIFT calls of the run SHIFT, REDUCE-LEFT(NP), SHIFT, the second
with a stray label. -/
theorem interns_collision_free_witness :
    ∃ i j,
      (interns transition_map.empty
        [⟨type_t.SHIFT, []⟩, ⟨type_t.REDUCE_L, [78, 80]⟩, ⟨type_t.SHIFT, [1]⟩]).1.get? 0
        = some i ∧
      (interns transition_map.empty
        [⟨type_t.SHIFT, []⟩, ⟨type_t.REDUCE_L, [78, 80]⟩, ⟨type_t.SHIFT, [1]⟩]).1.get? 2
        = some j ∧
      (i = j ↔ transition.equal ⟨type_t.SHIFT, []⟩ ⟨type_t.SHIFT, [1]⟩ = true) ∧
      ((⟨type_t.SHIFT, []⟩ : transition).type = (⟨type_t.SHIFT, [1]⟩ : transition).type →
        carries_label (⟨type_t.SHIFT, []⟩ : transition).type = false → i = j) ∧
      ((⟨type_t.SHIFT, []⟩ : transition).type = (⟨type_t.SHIFT, [1]⟩ : transition).type →
        carries_label (⟨type_t.SHIFT, []⟩ : transition).type = true →
        (⟨type_t.SHIFT, []⟩ : transition).label ≠ (⟨type_t.SHIFT, [1]⟩ : transition).label →
        i ≠ j) :=
  interns_collision_free
    [⟨type_t.SHIFT, []⟩, ⟨type_t.REDUCE_L, [78, 80]⟩, ⟨type_t.SHIFT, [1]⟩] 0 2
    ⟨type_t.SHIFT, []⟩ ⟨type_t.SHIFT, [1]⟩ rfl rfl

/-- C11 (strict lookup by transition): in a dictionary built from an empty one
by `operator[]` calls, `at(t)` throws `std::out_of_range` exactly when no call
was made with a transition equal to `t`; otherwise it returns the id that the
call with that transition returned. -/
theorem at_trans_strict (ts : List transition) (t : transition) :
    (at_trans (built ts) t = none ↔ ∀ u ∈ ts, u.equal t = false) ∧
    (∀ (j : Nat) (u : transition), ts.get? j = some u → u.equal t = true →
      ∃ i, (interns transition_map.empty ts).1.get? j = some i ∧
        at_trans (built ts) t = some i) := by
  refine ⟨find_built_eq_none_iff ts t, ?_⟩
  intro j u hj hut
  obtain ⟨i, hi, hf⟩ := interns_get transition_map.empty ts j u hj
  refine ⟨i, hi, ?_⟩
  show (built ts).map_.find t = some i
  rw [← find_congr hut]
  exact hf

/-- Lookups in the dictionary of SHIFT, REDUCE-LEFT(NP): SHIFT with a stray
label is found under the id of the SHIFT call, REDUCE-LEFT(VP) is not
found. -/
theorem at_trans_strict_witness :
    (∃ i, (interns transition_map.empty
        [⟨type_t.SHIFT, []⟩, ⟨type_t.REDUCE_L, [78, 80]⟩]).1.get? 0 = some i ∧
      at_trans (built [⟨type_t.SHIFT, []⟩, ⟨type_t.REDUCE_L, [78, 80]⟩])
        ⟨type_t.SHIFT, [1]⟩ = some i) ∧
    at_trans (built [⟨type_t.SHIFT, []⟩, ⟨type_t.REDUCE_L, [78, 80]⟩])
      ⟨type_t.REDUCE_L, [86, 80]⟩ = none :=
  ⟨(at_trans_strict [⟨type_t.SHIFT, []⟩, ⟨type_t.REDUCE_L, [78, 80]⟩]
      ⟨type_t.SHIFT, [1]⟩).2 0 ⟨type_t.SHIFT, []⟩ rfl (by decide),
   (at_trans_strict [⟨type_t.SHIFT, []⟩, ⟨type_t.REDUCE_L, [78, 80]⟩]
      ⟨type_t.REDUCE_L, [86, 80]⟩).1.2 (by decide)⟩

/-- C12 (strict lookup by id), evaluated where it fails: in the dictionary
`load` returns for a store that declares two entries and holds SHIFT twice,
`at(1)` returns SHIFT and `at(2)` throws, while the reverse index, whose size
is what `size()` returns, has one entry and the assertion of `size()` fails;
on a default-constructed dictionary `at(0)` throws, and in the dictionary of
SHIFT, REDUCE-LEFT(NP), where `size()` is 2, `at(1)` succeeds and `at(2)`
throws. -/
theorem at_id_beyond_size (junk : indeterminate) :
    (∃ d, load junk ⟨write_u64 2 ++ [type_t.SHIFT, type_t.SHIFT], false⟩ = .ok d ∧
      at_id d 1 = some ⟨type_t.SHIFT, []⟩ ∧ at_id d 2 = none ∧
      d.map_.length = 1 ∧ size d = none) ∧
    at_id transition_map.empty 0 = none ∧
    (size (built [⟨type_t.SHIFT, []⟩, ⟨type_t.REDUCE_L, [78, 80]⟩]) = some 2 ∧
      at_id (built [⟨type_t.SHIFT, []⟩, ⟨type_t.REDUCE_L, [78, 80]⟩]) 1
        = some ⟨type_t.REDUCE_L, [78, 80]⟩ ∧
      at_id (built [⟨type_t.SHIFT, []⟩, ⟨type_t.REDUCE_L, [78, 80]⟩]) 2 = none) :=
  ⟨⟨⟨[⟨type_t.SHIFT, []⟩, ⟨type_t.SHIFT, []⟩], [(⟨type_t.SHIFT, []⟩, 1)]⟩,
      rfl, by decide, by decide, by decide, by decide⟩, by decide,
    by decide, by decide, by decide⟩

/-- C13 (truncated label), evaluated where it fails: on a store that declares
one entry, holds the tag REDUCE_L and a label prefix announcing three bytes of
which two are present, `load` throws nothing and returns a dictionary whose
entry carries whatever the label variable holds; with the same entry in first
position of two declared the store is rejected. -/
theorem load_last_label_truncated (junk : indeterminate) :
    load junk ⟨write_u64 1 ++ [type_t.REDUCE_L] ++ write_u64 3 ++ [78, 80], false⟩
      = .ok ⟨[⟨type_t.REDUCE_L, junk.label⟩], [(⟨type_t.REDUCE_L, junk.label⟩, 0)]⟩ ∧
    load junk ⟨write_u64 2 ++ [type_t.REDUCE_L] ++ write_u64 3 ++ [78, 80], false⟩
      = .error .too_few_transitions :=
  ⟨rfl, rfl⟩

/-- C14 (save layout): the bytes `save` writes are the layout of the
specification, the sequence length as an unsigned 64-bit count and then, per
entry in sequence order, the tag and, exactly for the three label-carrying
kinds, the length-prefixed label; the count reads back as the length modulo
`2 ^ 64`. -/
theorem save_eq_layout (d : transition_map) :
    save d = layout d.transitions_ ∧
    (read_u64 ⟨save d, false⟩).1 = some (d.transitions_.length % 2 ^ 64) := by
  constructor
  · simp [save, layout, save_entries_eq_layout_entries, write_u64]
  · have h := read_u64_write_u64 (d.transitions_.length % 2 ^ 64)
      (save_entries d.transitions_) (Nat.mod_lt _ (by decide))
    have hw : write_u64 (d.transitions_.length % 2 ^ 64) = write_u64 d.transitions_.length := by
      simp [write_u64]
    rw [hw] at h
    rw [save, h]

/-- C15 (load error classification at entry): on a stream that is already
failed `load` throws the missing-file error, and on a good stream too short
to hold the count it throws the malformed-file error. -/
theorem load_entry_errors (junk : indeterminate) (bytes : List Byte) :
    load junk ⟨bytes, true⟩ = .error .missing_file ∧
    (bytes.length < 8 → load junk ⟨bytes, false⟩ = .error .malformed_file) ∧
    load junk ⟨[], false⟩ = .error .malformed_file ∧
    transition_map_exception.is_malformed .malformed_file = true ∧
    transition_map_exception.is_malformed .missing_file = false := by
  refine ⟨rfl, ?_, rfl, rfl, rfl⟩
  intro h
  have h8 : ¬ 8 ≤ bytes.length := by omega
  simp [load, load_stream, read_u64, h8, Except.map]

/-- The two entry errors on a store of three bytes. -/
theorem load_entry_errors_witness :
    load ⟨type_t.IDLE, []⟩ ⟨[1, 0, 0], true⟩ = .error .missing_file ∧
    load ⟨type_t.IDLE, []⟩ ⟨[1, 0, 0], false⟩ = .error .malformed_file :=
  ⟨(load_entry_errors ⟨type_t.IDLE, []⟩ [1, 0, 0]).1,
   (load_entry_errors ⟨type_t.IDLE, []⟩ [1, 0, 0]).2.1 (by decide)⟩

/-- C16 (kind tags never cause a load failure): a store in the persisted
layout, the declared number of complete entries with any tag values, loads;
an entry whose tag is REDUCE_L, REDUCE_R or UNARY comes back with its label
and every other entry, its tag named or not, as the unlabeled transition of
that tag. For a tag other than those three the loop body reads that one byte
only and goes on with the bytes after it. The store of three entries with the
tags 200, 255 and 0 and no label bytes loads as three unlabeled
transitions, and the store of UNARY with the label S followed by the tag 200
as those two entries. -/
theorem load_accepts_every_kind (junk : indeterminate) (es : List transition)
    (rest : List Byte) (hn : es.length < 2 ^ 64)
    (hl : ∀ e ∈ es, e.type = type_t.REDUCE_L ∨ e.type = type_t.REDUCE_R ∨
      e.type = type_t.UNARY → e.label.length < 2 ^ 64) :
    (∃ d, load_stream junk ⟨layout es ++ rest, false⟩ = .ok (d, ⟨rest, false⟩) ∧
      load junk ⟨layout es ++ rest, false⟩ = .ok d ∧
      d.transitions_ = es.map (fun e =>
        if e.type = type_t.REDUCE_L ∨ e.type = type_t.REDUCE_R ∨ e.type = type_t.UNARY
        then (⟨e.type, e.label⟩ : transition) else ⟨e.type, []⟩)) ∧
    (∀ (k : type_t) (bs : List Byte) (d : transition_map),
      k ≠ type_t.REDUCE_L → k ≠ type_t.REDUCE_R → k ≠ type_t.UNARY →
      load_entry junk ⟨k :: bs, false⟩ d =
        (⟨d.transitions_ ++ [⟨k, []⟩], d.map_.assign ⟨k, []⟩ d.map_.length⟩,
          ⟨bs, false⟩)) ∧
    load junk ⟨[3, 0, 0, 0, 0, 0, 0, 0, 200, 255, 0], false⟩ =
      .ok ⟨[⟨200, []⟩, ⟨255, []⟩, ⟨0, []⟩],
        [(⟨200, []⟩, 0), (⟨255, []⟩, 1), (⟨0, []⟩, 2)]⟩ ∧
    load junk ⟨[2, 0, 0, 0, 0, 0, 0, 0, 3, 1, 0, 0, 0, 0, 0, 0, 0, 83, 200], false⟩ =
      .ok ⟨[⟨type_t.UNARY, [83]⟩, ⟨200, []⟩],
        [(⟨type_t.UNARY, [83]⟩, 0), (⟨200, []⟩, 1)]⟩ := by
  have hfit : fits es := ⟨hn, fun e he hc => hl e he ((carries_label_iff e.type).1 hc)⟩
  have hlay : layout es = write_u64 es.length ++ save_entries es := by
    rw [layout, save_entries_eq_layout_entries]; rfl
  have hmap : es.map transition.reloaded = es.map (fun e =>
      if e.type = type_t.REDUCE_L ∨ e.type = type_t.REDUCE_R ∨ e.type = type_t.UNARY
      then (⟨e.type, e.label⟩ : transition) else ⟨e.type, []⟩) := by
    apply List.map_congr_left
    intro e _
    by_cases h : e.type = type_t.REDUCE_L ∨ e.type = type_t.REDUCE_R ∨ e.type = type_t.UNARY
    · simp only [transition.reloaded, (carries_label_iff e.type).2 h, if_true, if_pos h]
    · have hc : carries_label e.type = false := by
        cases hk : carries_label e.type
        · rfl
        · exact absurd ((carries_label_iff e.type).1 hk) h
      simp [transition.reloaded, transition.of_type, hc, if_neg h]
  have hload := load_stream_complete junk es rest hfit
  rw [← hlay] at hload
  refine ⟨⟨loaded transition_map.empty (es.map transition.reloaded), hload, ?_, ?_⟩, ?_, rfl, rfl⟩
  · rw [load, hload]; rfl
  · rw [← hmap]; simp [transitions_loaded, transition_map.empty]
  · intro k bs d h1 h2 h3
    have hc : carries_label k = false := by
      cases hk : carries_label k
      · rfl
      · rcases (carries_label_iff k).1 hk with h | h | h
        · exact absurd h h1
        · exact absurd h h2
        · exact absurd h h3
    exact load_entry_unlabeled junk k bs d hc

/-- A store of four entries after which two bytes follow: the tags 200 and
255, UNARY with the label S, and IDLE. -/
theorem load_accepts_every_kind_witness :
    ∃ d, load_stream ⟨type_t.IDLE, []⟩
        ⟨layout [⟨200, []⟩, ⟨255, []⟩, ⟨type_t.UNARY, [83]⟩, ⟨type_t.IDLE, []⟩] ++ [9, 9],
          false⟩ = .ok (d, ⟨[9, 9], false⟩) ∧
      load ⟨type_t.IDLE, []⟩
        ⟨layout [⟨200, []⟩, ⟨255, []⟩, ⟨type_t.UNARY, [83]⟩, ⟨type_t.IDLE, []⟩] ++ [9, 9],
          false⟩ = .ok d ∧
      d.transitions_ =
        [(⟨200, []⟩ : transition), ⟨255, []⟩, ⟨type_t.UNARY, [83]⟩,
          ⟨type_t.IDLE, []⟩].map (fun e =>
        if e.type = type_t.REDUCE_L ∨ e.type = type_t.REDUCE_R ∨ e.type = type_t.UNARY
        then (⟨e.type, e.label⟩ : transition) else ⟨e.type, []⟩) :=
  (load_accepts_every_kind ⟨type_t.IDLE, []⟩
    [⟨200, []⟩, ⟨255, []⟩, ⟨type_t.UNARY, [83]⟩, ⟨type_t.IDLE, []⟩] [9, 9]
    (by decide) (by decide)).1

/-- C17 (re-save reproduces the file): on a store that is exactly a count and
that many complete entries, duplicates allowed, `load` succeeds and `save` of
the loaded dictionary writes the same bytes. -/
theorem load_save_reproduces (junk : indeterminate) (es : List transition) (hfit : fits es) :
    ∃ d, load junk ⟨write_u64 es.length ++ save_entries es, false⟩ = .ok d ∧
      save d = write_u64 es.length ++ save_entries es := by
  have hload := load_stream_complete junk es [] hfit
  rw [List.append_nil] at hload
  refine ⟨loaded transition_map.empty (es.map transition.reloaded), ?_, ?_⟩
  · rw [load, hload]; rfl
  · simp [save, transitions_loaded, transition_map.empty, save_entries_map_reloaded]

/-- Re-saving the store of SHIFT, SHIFT, UNARY(S), SHIFT with a stray label. -/
theorem load_save_reproduces_witness :
    ∃ d, load ⟨type_t.IDLE, []⟩
        ⟨write_u64 [(⟨type_t.SHIFT, []⟩ : transition), ⟨type_t.SHIFT, []⟩,
            ⟨type_t.UNARY, [83]⟩, ⟨type_t.SHIFT, [1]⟩].length ++
          save_entries [⟨type_t.SHIFT, []⟩, ⟨type_t.SHIFT, []⟩, ⟨type_t.UNARY, [83]⟩,
            ⟨type_t.SHIFT, [1]⟩], false⟩ = .ok d ∧
      save d =
        write_u64 [(⟨type_t.SHIFT, []⟩ : transition), ⟨type_t.SHIFT, []⟩,
            ⟨type_t.UNARY, [83]⟩, ⟨type_t.SHIFT, [1]⟩].length ++
          save_entries [⟨type_t.SHIFT, []⟩, ⟨type_t.SHIFT, []⟩, ⟨type_t.UNARY, [83]⟩,
            ⟨type_t.SHIFT, [1]⟩] :=
  load_save_reproduces ⟨type_t.IDLE, []⟩
    [⟨type_t.SHIFT, []⟩, ⟨type_t.SHIFT, []⟩, ⟨type_t.UNARY, [83]⟩, ⟨type_t.SHIFT, [1]⟩]
    (by unfold fits; decide)

/-- C18 (trailing bytes are ignored): when a store holds the declared number
of complete entries, possibly followed by more bytes, appending any bytes to
it changes neither the success of `load` nor the dictionary it yields, and
`load` leaves the stream at the first byte after the last declared entry. -/
theorem load_ignores_trailing (junk : indeterminate) (es : List transition)
    (y x : List Byte) (hfit : fits es) :
    ∃ d, load junk ⟨write_u64 es.length ++ save_entries es ++ y, false⟩ = .ok d ∧
      load junk ⟨(write_u64 es.length ++ save_entries es ++ y) ++ x, false⟩ = .ok d ∧
      load_stream junk ⟨(write_u64 es.length ++ save_entries es ++ y) ++ x, false⟩
        = .ok (d, ⟨y ++ x, false⟩) := by
  have h1 := load_stream_complete junk es y hfit
  have h2 := load_stream_complete junk es (y ++ x) hfit
  rw [← List.append_assoc] at h2
  refine ⟨loaded transition_map.empty (es.map transition.reloaded), ?_, ?_, h2⟩
  · rw [load, h1]; rfl
  · rw [load, h2]; rfl

/-- The store of SHIFT, UNARY(S) with one stray byte, and three more
appended. -/
theorem load_ignores_trailing_witness :
    ∃ d, load ⟨type_t.IDLE, []⟩
        ⟨write_u64 [(⟨type_t.SHIFT, []⟩ : transition), ⟨type_t.UNARY, [83]⟩].length ++
          save_entries [⟨type_t.SHIFT, []⟩, ⟨type_t.UNARY, [83]⟩] ++ [7], false⟩ = .ok d ∧
      load ⟨type_t.IDLE, []⟩
        ⟨(write_u64 [(⟨type_t.SHIFT, []⟩ : transition), ⟨type_t.UNARY, [83]⟩].length ++
          save_entries [⟨type_t.SHIFT, []⟩, ⟨type_t.UNARY, [83]⟩] ++ [7]) ++ [1, 2, 3],
          false⟩ = .ok d ∧
      load_stream ⟨type_t.IDLE, []⟩
        ⟨(write_u64 [(⟨type_t.SHIFT, []⟩ : transition), ⟨type_t.UNARY, [83]⟩].length ++
          save_entries [⟨type_t.SHIFT, []⟩, ⟨type_t.UNARY, [83]⟩] ++ [7]) ++ [1, 2, 3],
          false⟩ = .ok (d, ⟨[7] ++ [1, 2, 3], false⟩) :=
  load_ignores_trailing ⟨type_t.IDLE, []⟩ [⟨type_t.SHIFT, []⟩, ⟨type_t.UNARY, [83]⟩]
    [7] [1, 2, 3] (by unfold fits; decide)

end TransitionMap
